import Mathlib

/-!
Verification development for the LabkafeEquipmentAI matching/ranking core.

The Python source is shallowly embedded over exact rational arithmetic:
Python floats become rationals, numpy arrays become lists, Python dicts
become insertion-ordered association lists, and fallible calls become
Except/Option values.  numpy's square root (inside np.linalg.norm) has no
rational form, so every definition that needs it is parameterised by a
function sqrt : Q -> Q; theorems assume only the properties of the real
square root they need (such as sqrt 0 = 0), and witnesses instantiate
sqrt on inputs whose norms are rational.

A NaN float (produced by a 0/0 division in search_vectors) is modelled as
the value none of type Option Q; numpy argsort places NaN last in
ascending order, which the comparison leV reproduces.  Python sorted and
numpy argsort on small arrays are stable; both are modelled by the stable
insertion sort stableSortBy below.
-/

namespace Labkafe

/-- Stable insertion into a list: the new element goes in front of the
first element not Bool-below it.  Mirrors the placement performed by
Python sorted and numpy stable argsort. -/
def orderedInsertB {α : Type} (r : α → α → Bool) (a : α) : List α → List α
  | [] => [a]
  | b :: l => if r a b then a :: b :: l else b :: orderedInsertB r a l

/-- Stable sort by a Boolean relation: earlier elements are inserted after
later ones have been sorted, so among r-equivalent elements the original
order is kept. -/
def stableSortBy {α : Type} (r : α → α → Bool) : List α → List α
  | [] => []
  | a :: l => orderedInsertB r a (stableSortBy r l)

/-- Dot product of two vectors, as in np.dot on equal-length 1-d arrays. -/
def dotL (v w : List ℚ) : ℚ := (List.zipWith (fun a b => a * b) v w).sum

/-- Sum of squares of a vector; np.linalg.norm v equals sq (normSq v) for
the square-root function sq. -/
def normSq (v : List ℚ) : ℚ := dotL v v

/-- The in-memory vector cache of api/database.py: parallel lists
_vectors_cache, _item_skus, _item_names. -/
structure Snapshot where
  rows : List (List ℚ)
  skus : List String
  names : List String

/-- Comparison used by numpy ascending sort on floats that may be NaN
(modelled as none): NaN compares as greatest and is placed last. -/
def leV : Option ℚ → Option ℚ → Bool
  | _, none => true
  | none, some _ => false
  | some a, some b => decide (a ≤ b)

/-- Model of np.argsort on a 1-d array: the indices 0..n-1 stably sorted
in ascending order of their values (stable model of argsort; numpy's
small-array insertion sort is stable, and NaN is sorted last). -/
def argsortAsc (vals : List (Option ℚ)) : List ℕ :=
  stableSortBy (fun i j => leV (vals.getD i none) (vals.getD j none))
    (List.range vals.length)

/-- The similarity array computed inside search_vectors:
np.dot(_vectors_cache, query_vector) / (norm(rows, axis=1) * norm(query)).
A row whose denominator is zero yields the float NaN (its numerator is
then also zero), modelled as none. -/
def simVals (sq : ℚ → ℚ) (rows : List (List ℚ)) (q : List ℚ) : List (Option ℚ) :=
  rows.map (fun r =>
    let d := sq (normSq r) * sq (normSq q)
    if d = 0 then none else some (dotL r q / d))

/-- Shared ranking idiom of search_vectors and search_vectors_batch:
np.argsort(similarities)[::-1][:top_k] followed by indexing skus and
similarities at the chosen rows. -/
def rankBySims (skus : List String) (sims : List (Option ℚ)) (k : ℕ) :
    List (String × Option ℚ) :=
  (((argsortAsc sims).reverse).take k).map
    (fun i => (skus.getD i "", sims.getD i none))

/-- Embedding of database.search_vectors (the snapshot-present branch). -/
def search_vectors (sq : ℚ → ℚ) (snap : Snapshot) (q : List ℚ) (k : ℕ) :
    List (String × Option ℚ) :=
  rankBySims snap.skus (simVals sq snap.rows q) k

/-- The 1e-10 substituted for a zero norm in search_vectors_batch. -/
def epsGuard : ℚ := 1 / 10000000000

/-- A norm with the zero guard of search_vectors_batch:
norms[norms == 0] = 1e-10. -/
def guardedNorm (sq : ℚ → ℚ) (v : List ℚ) : ℚ :=
  if sq (normSq v) = 0 then epsGuard else sq (normSq v)

/-- The similarity row computed inside search_vectors_batch for one query:
np.dot(query_vectors, _vectors_cache.T) / (query_norms * cache_norms.T),
with zero norms replaced by 1e-10, so no entry is ever NaN. -/
def batchSimVals (sq : ℚ → ℚ) (rows : List (List ℚ)) (q : List ℚ) :
    List (Option ℚ) :=
  rows.map (fun r => some (dotL q r / (guardedNorm sq q * guardedNorm sq r)))

/-- Embedding of database.search_vectors_batch (snapshot-present branch),
including its early return of [] for an empty query matrix. -/
def search_vectors_batch (sq : ℚ → ℚ) (snap : Snapshot) (qs : List (List ℚ))
    (k : ℕ) : List (List (String × Option ℚ)) :=
  if qs.isEmpty then []
  else qs.map (fun q => rankBySims snap.skus (batchSimVals sq snap.rows q) k)

/-- Embedding of database.cosine_similarity with its explicit zero-norm
guard returning 0.0. -/
def cosine_similarity (sq : ℚ → ℚ) (v w : List ℚ) : ℚ :=
  if sq (normSq v) = 0 ∨ sq (normSq w) = 0 then 0
  else dotL v w / (sq (normSq v) * sq (normSq w))

/-- The RuntimeError raised by database accessors when the vectors cache
was never loaded. -/
inductive DbError
  | notLoaded
deriving DecidableEq

/-- Embedding of database.get_vectors over the module state: the state is
some snapshot after a successful load_vectors_to_memory, none before. -/
def get_vectorsE (st : Option Snapshot) :
    Except DbError (List (List ℚ) × List String × List String) :=
  match st with
  | none => Except.error DbError.notLoaded
  | some s => Except.ok (s.rows, s.skus, s.names)

/-- Embedding of database.search_vectors including its not-loaded check. -/
def search_vectorsE (sq : ℚ → ℚ) (st : Option Snapshot) (q : List ℚ) (k : ℕ) :
    Except DbError (List (String × Option ℚ)) :=
  match st with
  | none => Except.error DbError.notLoaded
  | some s => Except.ok (search_vectors sq s q k)

/-- Embedding of database.search_vectors_batch including its not-loaded
check, which precedes the empty-input check. -/
def search_vectors_batchE (sq : ℚ → ℚ) (st : Option Snapshot)
    (qs : List (List ℚ)) (k : ℕ) : Except DbError (List (List (String × Option ℚ))) :=
  match st with
  | none => Except.error DbError.notLoaded
  | some s => Except.ok (search_vectors_batch sq s qs k)

/-- Weight of the historical signal in matcher.py. -/
def HISTORY_WEIGHT : ℚ := 7 / 10

/-- Weight of the vector signal in matcher.py. -/
def VECTOR_WEIGHT : ℚ := 3 / 10

/-- Python max over a list of ints; the empty case is never reached by
normalize_frequencies, which guards emptiness first. -/
def maxVal (l : List ℤ) : ℤ :=
  match l with
  | [] => 0
  | x :: xs => xs.foldl max x

/-- Embedding of matcher.normalize_frequencies over an insertion-ordered
association list standing for the Python dict. -/
def normalize_frequencies (freqs : List (String × ℤ)) : List (String × ℚ) :=
  if freqs.isEmpty then []
  else
    let m := maxVal (freqs.map Prod.snd)
    if m = 0 then freqs.map (fun p => (p.1, (0 : ℚ)))
    else freqs.map (fun p => (p.1, (p.2 : ℚ) / (m : ℚ)))

/-- The per-sku score record built by calculate_hybrid_score. -/
structure ScoreRec where
  historical_score : ℚ
  vector_score : ℚ
  historical_frequency : ℤ
  vector_similarity : ℚ
  final_score : ℚ
deriving DecidableEq

/-- Python dict.get(k, d) on an association list: first matching key wins
(keys coming from a dict are unique). -/
def lookupD {β : Type} (l : List (String × β)) (k : String) (d : β) : β :=
  match l.find? (fun p => p.1 == k) with
  | some p => p.2
  | none => d

/-- Value of the last pair of l with the given key, or d when none has
it; this is what repeated dict assignments for the same key leave in the
dict. -/
def lastValD (l : List (String × ℚ)) (k : String) (d : ℚ) : ℚ :=
  lookupD l.reverse k d

/-- The combined_scores dict after the historical loop of
calculate_hybrid_score: one record per normalized-history sku, in history
iteration order. -/
def histPhase (histRaw : List (String × ℤ)) : List (String × ScoreRec) :=
  (normalize_frequencies histRaw).map (fun p =>
    (p.1,
      { historical_score := p.2 * HISTORY_WEIGHT
        vector_score := 0
        historical_frequency := lookupD histRaw p.1 0
        vector_similarity := 0
        final_score := p.2 * HISTORY_WEIGHT }))

/-- Key-membership test for the association list standing for a dict. -/
def containsKey {β : Type} (l : List (String × β)) (k : String) : Bool :=
  l.any (fun p => p.1 == k)

/-- One iteration of the vector loop of calculate_hybrid_score: an
existing record is updated in place (vector_score overwritten,
historical_score untouched), a new sku is appended at the end, exactly as
a Python dict assignment behaves. -/
def addVector (acc : List (String × ScoreRec)) (e : String × ℚ) :
    List (String × ScoreRec) :=
  if containsKey acc e.1 then
    acc.map (fun p =>
      if p.1 == e.1 then
        (p.1,
          { p.2 with
            vector_score := e.2 * VECTOR_WEIGHT
            vector_similarity := e.2
            final_score := p.2.historical_score + e.2 * VECTOR_WEIGHT })
      else p)
  else
    acc ++ [(e.1,
      { historical_score := 0
        vector_score := e.2 * VECTOR_WEIGHT
        historical_frequency := 0
        vector_similarity := e.2
        final_score := e.2 * VECTOR_WEIGHT })]

/-- The combined_scores dict after both loops of calculate_hybrid_score. -/
def combineScores (histRaw : List (String × ℤ)) (vres : List (String × ℚ)) :
    List (String × ScoreRec) :=
  vres.foldl addVector (histPhase histRaw)

/-- Comparison of Python sorted(..., key=final_score, reverse=True):
a stays before b when its final_score is at least that of b. -/
def scoreGe (a b : String × ScoreRec) : Bool :=
  decide (b.2.final_score ≤ a.2.final_score)

/-- Steps 4 and 5 of matcher.calculate_hybrid_score: combine the raw
historical mapping with the vector results, sort by final_score
descending (Python sorted is stable), truncate to top_k and format. -/
def calculate_hybrid_core (histRaw : List (String × ℤ))
    (vres : List (String × ℚ)) (top_k : ℕ) : List (String × ℚ × ScoreRec) :=
  ((stableSortBy scoreGe (combineScores histRaw vres)).take top_k).map
    (fun p => (p.1, p.2.final_score, p.2))

/-- Embedding of matcher.calculate_hybrid_score called without
pre-computed query_vector or vector_results: the embedding call and the
vector search are fallible dependencies; a failed embedding leaves
query_vector as None, a failed search leaves vector_results as [], and
the search is requested with top_k * 2. -/
def calculate_hybrid_score (histRaw : List (String × ℤ))
    (embed : Except Unit (List ℚ))
    (searchV : List ℚ → ℕ → Except Unit (List (String × ℚ)))
    (top_k : ℕ) : List (String × ℚ × ScoreRec) :=
  let qv : Option (List ℚ) :=
    match embed with
    | Except.error _ => none
    | Except.ok v => some v
  let vres : List (String × ℚ) :=
    match qv with
    | none => []
    | some v =>
        match searchV v (top_k * 2) with
        | Except.error _ => []
        | Except.ok r => r
  calculate_hybrid_core histRaw vres top_k

/-- An items-table row as used by get_suggestions. -/
structure Item where
  name : String
  image : Option String
  amt : Option ℚ
deriving DecidableEq

/-- One suggestion dictionary returned by get_suggestions. -/
structure Suggestion where
  sku : String
  item_name : Option String
  confidence_score : ℚ
  historical_frequency : ℤ
  vector_similarity : ℚ
  historical_score : ℚ
  vector_score : ℚ
  image : Option String
  price : Option ℚ
deriving DecidableEq

/-- Embedding of matcher.get_suggestions on its default path
(skip_item_lookup=False, no items_cache): each hybrid result whose sku is
found in the items table becomes a suggestion, a missing sku is skipped.
The function body is total, so the surrounding catch-all except clause of
the source can never fire in the model; in particular no exception ever
reaches the caller. -/
def get_suggestions (histRaw : List (String × ℤ))
    (embed : Except Unit (List ℚ))
    (searchV : List ℚ → ℕ → Except Unit (List (String × ℚ)))
    (getItem : String → Option Item) (top_k : ℕ) : List Suggestion :=
  (calculate_hybrid_score histRaw embed searchV top_k).filterMap (fun r =>
    match getItem r.1 with
    | none => none
    | some it =>
        some
          { sku := r.1
            item_name := some it.name
            confidence_score := r.2.1
            historical_frequency := r.2.2.historical_frequency
            vector_similarity := r.2.2.vector_similarity
            historical_score := r.2.2.historical_score
            vector_score := r.2.2.vector_score
            image := it.image
            price := it.amt })

/-- Partition of a list into consecutive chunks of size n (the last chunk
may be shorter), as produced by iterating range(0, len(texts), n).  The
source never runs this with n = 0; the n = 0 branch returning [] is a
formal placeholder outside every theorem's hypotheses. -/
def chunksOf {α : Type} (n : ℕ) (l : List α) : List (List α) :=
  if l.isEmpty || n == 0 then []
  else l.take n :: chunksOf n (l.drop n)
termination_by l.length
decreasing_by
  rename_i h
  simp only [Bool.or_eq_true, List.isEmpty_iff, beq_iff_eq, not_or] at h
  have h1 : 0 < l.length := List.length_pos.mpr h.1
  have h2 : 0 < n := Nat.pos_of_ne_zero h.2
  simpa using Nat.sub_lt h1 h2

/-- Processing of one chunk inside matcher.generate_embeddings_batch: the
outbound service call either fails (the except branch marks every item of
the chunk None) or returns response items tagged with their input index,
which are re-sorted by that index before their embeddings are taken. -/
def processChunk {α : Type} (service : List String → Option (List (ℕ × α)))
    (chunk : List String) : List (Option α) :=
  match service chunk with
  | none => List.replicate chunk.length none
  | some data =>
      (stableSortBy (fun a b => decide (a.1 ≤ b.1)) data).map (fun p => some p.2)

/-- Embedding of matcher.generate_embeddings_batch: one service call per
chunk of at most B texts, results concatenated in chunk order. -/
def generate_embeddings_batch {α : Type}
    (service : List String → Option (List (ℕ × α))) (B : ℕ)
    (texts : List String) : List (Option α) :=
  ((chunksOf B texts).map (processChunk service)).flatten

/-- The request log of generate_embeddings_batch: the loop body performs
exactly one HTTP post per iteration, so the calls made are the chunks in
order; the fold mirrors the accumulating loop. -/
def generate_embeddings_batch_log {α : Type}
    (service : List String → Option (List (ℕ × α))) (B : ℕ)
    (texts : List String) : List (Option α) × List (List String) :=
  (chunksOf B texts).foldl
    (fun acc c => (acc.1 ++ processChunk service c, acc.2 ++ [c])) ([], [])

/-- The per-item counting loop of generate_vectors.process_batch_worker:
an item with no embedding counts failed, an item whose update_vector
succeeds counts succeeded, otherwise failed. -/
def workerCounts (embedsOk updatesOk : List Bool) : ℕ × ℕ :=
  (List.zip embedsOk updatesOk).foldl
    (fun c e =>
      if !e.1 then (c.1, c.2 + 1)
      else if e.2 then (c.1 + 1, c.2)
      else (c.1, c.2 + 1))
    (0, 0)

/-- Environment of one batch worker: workerRaises is true when the body
of process_batch_worker raises (client construction fails, or the inner
update loop raises a non-OperationalError and re-raises), so control
reaches the outer except clause; embedsOk and updatesOk give the per-item
outcomes on the normal path. -/
structure BatchEnv where
  workerRaises : Bool
  embedsOk : List Bool
  updatesOk : List Bool

/-- Embedding of generate_vectors.process_batch_worker: the first
component is the increment applied to the shared success/failed counters,
the second is the tuple the function returns.  On the outer except path
the function returns (0, len(batch_items)) but never reaches the
counter-update block, so the counter increment is (0, 0). -/
def process_batch_worker (batch : List String) (env : BatchEnv) :
    (ℕ × ℕ) × (ℕ × ℕ) :=
  if env.workerRaises then ((0, 0), (0, batch.length))
  else
    let c := workerCounts env.embedsOk env.updatesOk
    (c, c)

/-- Embedding of the counter aggregation in generate_vectors.main: the
final totals are exactly the shared counters, accumulated only through
the with-lock block of each worker; the tuples returned by the futures
are read but never folded into the totals. -/
def runIngestion (batches : List (List String)) (envs : List BatchEnv) :
    ℕ × ℕ :=
  (List.zip batches envs).foldl
    (fun acc be =>
      ((process_batch_worker be.1 be.2).1.1 + acc.1,
       (process_batch_worker be.1 be.2).1.2 + acc.2))
    (0, 0)

/-- Total number of items attempted in an ingestion run. -/
def totalAttempted (batches : List (List String)) : ℕ :=
  (batches.map List.length).sum

theorem mem_orderedInsertB {α : Type} (r : α → α → Bool) (a x : α) (l : List α) :
    x ∈ orderedInsertB r a l ↔ x = a ∨ x ∈ l := by
  induction l with
  | nil => simp [orderedInsertB]
  | cons b t ih =>
      by_cases h : r a b
      · simp [orderedInsertB, h]
      · simp [orderedInsertB, h, ih]
        tauto

theorem length_orderedInsertB {α : Type} (r : α → α → Bool) (a : α) (l : List α) :
    (orderedInsertB r a l).length = l.length + 1 := by
  induction l with
  | nil => rfl
  | cons b t ih =>
      by_cases h : r a b
      · simp [orderedInsertB, h]
      · simp [orderedInsertB, h, ih]

theorem mem_stableSortBy {α : Type} (r : α → α → Bool) (x : α) (l : List α) :
    x ∈ stableSortBy r l ↔ x ∈ l := by
  induction l with
  | nil => simp [stableSortBy]
  | cons a t ih =>
      simp [stableSortBy, mem_orderedInsertB, ih]

theorem length_stableSortBy {α : Type} (r : α → α → Bool) (l : List α) :
    (stableSortBy r l).length = l.length := by
  induction l with
  | nil => rfl
  | cons a t ih => simp [stableSortBy, length_orderedInsertB, ih]

theorem pairwise_orderedInsertB {α : Type} (r : α → α → Bool) (P : α → α → Prop)
    (htot : ∀ a b, r a b = true ∨ r b a = true)
    (htr : ∀ a b c, r a b = true → r b c = true → r a c = true)
    (x : α) (l : List α)
    (hl : l.Pairwise (fun a b => r a b = true ∧ (r b a = true → P a b)))
    (hx : ∀ y ∈ l, P x y) :
    (orderedInsertB r x l).Pairwise
      (fun a b => r a b = true ∧ (r b a = true → P a b)) := by
  induction l with
  | nil => simp [orderedInsertB]
  | cons b t ih =>
      rcases List.pairwise_cons.mp hl with ⟨hb, ht⟩
      by_cases h : r x b
      · simp only [orderedInsertB, h, if_pos]
        refine List.pairwise_cons.mpr ⟨?_, hl⟩
        intro y hy
        rcases List.mem_cons.mp hy with rfl | hyt
        · exact ⟨h, fun _ => hx y (by simp)⟩
        · rcases hb y hyt with ⟨hby, _⟩
          exact ⟨htr x b y h hby, fun _ => hx y (by simp [hyt])⟩
      · simp only [orderedInsertB, h, if_neg, Bool.not_eq_true]
        refine List.pairwise_cons.mpr ⟨?_, ih ht (fun y hy => hx y (by simp [hy]))⟩
        intro y hy
        rcases (mem_orderedInsertB r x y t).mp hy with hxy | hyt
        · rw [hxy]
          rcases htot x b with hxb | hbx
          · exact absurd hxb h
          · exact ⟨hbx, fun hxb => absurd hxb h⟩
        · exact hb y hyt

theorem pairwise_stableSortBy {α : Type} (r : α → α → Bool) (P : α → α → Prop)
    (htot : ∀ a b, r a b = true ∨ r b a = true)
    (htr : ∀ a b c, r a b = true → r b c = true → r a c = true)
    (l : List α) (hl : l.Pairwise P) :
    (stableSortBy r l).Pairwise
      (fun a b => r a b = true ∧ (r b a = true → P a b)) := by
  induction l with
  | nil => simp [stableSortBy]
  | cons a t ih =>
      rcases List.pairwise_cons.mp hl with ⟨ha, ht⟩
      exact pairwise_orderedInsertB r P htot htr a (stableSortBy r t) (ih ht)
        (fun y hy => ha y ((mem_stableSortBy r y t).mp hy))

theorem filter_orderedInsertB {α : Type} (r : α → α → Bool) (p : α → Bool)
    (x : α) (l : List α)
    (hcls : ∀ b, p x = true → p b = true → r x b = true) :
    (orderedInsertB r x l).filter p =
      if p x then x :: l.filter p else l.filter p := by
  induction l with
  | nil => by_cases h : p x <;> simp [orderedInsertB, List.filter, h]
  | cons b t ih =>
      by_cases h : r x b
      · by_cases hp : p x <;> simp [orderedInsertB, h, List.filter, hp]
      · have hpb : p x = true → p b = false := by
          intro hpx
          by_contra hb
          exact h (hcls b hpx (by revert hb; cases p b <;> simp))
        by_cases hpx : p x
        · have hb := hpb hpx
          simp [orderedInsertB, h, List.filter, hb, ih, hpx]
        · simp only [orderedInsertB, h, if_neg, Bool.not_eq_true, List.filter]
          cases hpbv : p b <;> simp [ih, hpx, hpbv]

theorem filter_stableSortBy {α : Type} (r : α → α → Bool) (p : α → Bool)
    (l : List α)
    (hcls : ∀ a b, p a = true → p b = true → r a b = true) :
    (stableSortBy r l).filter p = l.filter p := by
  induction l with
  | nil => rfl
  | cons a t ih =>
      rw [stableSortBy, filter_orderedInsertB r p a _ (fun b => hcls a b)]
      by_cases h : p a <;> simp [List.filter, h, ih]

theorem pairwise_trivial {α : Type} (l : List α) : l.Pairwise (fun _ _ => True) := by
  induction l with
  | nil => exact List.Pairwise.nil
  | cons a t ih => exact List.Pairwise.cons (fun _ _ => trivial) ih

theorem le_foldl_max (l : List ℤ) (b : ℤ) : b ≤ l.foldl max b := by
  induction l generalizing b with
  | nil => exact le_refl b
  | cons x xs ih =>
      rw [List.foldl_cons]
      exact le_trans (le_max_left b x) (ih (max b x))

theorem mem_le_foldl_max (l : List ℤ) (b a : ℤ) (h : a ∈ l) : a ≤ l.foldl max b := by
  induction l generalizing b with
  | nil => cases h
  | cons x xs ih =>
      rw [List.foldl_cons]
      rcases List.mem_cons.mp h with rfl | hx
      · exact le_trans (le_max_right b a) (le_foldl_max xs (max b a))
      · exact ih (max b x) hx

theorem mem_le_maxVal (l : List ℤ) (a : ℤ) (h : a ∈ l) : a ≤ maxVal l := by
  cases l with
  | nil => cases h
  | cons x xs =>
      rcases List.mem_cons.mp h with rfl | hx
      · exact le_foldl_max xs a
      · exact mem_le_foldl_max xs x a hx

theorem lookupD_eq_of_mem {β : Type} (l : List (String × β)) (k : String)
    (b d : β) (hnd : (l.map Prod.fst).Nodup) (h : (k, b) ∈ l) :
    lookupD l k d = b := by
  induction l with
  | nil => cases h
  | cons p t ih =>
      rcases List.mem_cons.mp h with h1 | h2
      · rw [← h1]
        simp [lookupD, List.find?]
      · have hk : p.1 ≠ k := by
          intro hpk
          have : k ∈ t.map Prod.fst := List.mem_map.mpr ⟨(k, b), h2, rfl⟩
          rw [List.map_cons, List.nodup_cons] at hnd
          exact hnd.1 (hpk ▸ this)
        have hnd2 : (t.map Prod.fst).Nodup := by
          rw [List.map_cons, List.nodup_cons] at hnd
          exact hnd.2
        simp only [lookupD, List.find?]
        rw [show (p.1 == k) = false from beq_eq_false_iff_ne.mpr hk]
        exact ih hnd2 h2

theorem lookupD_eq_default {β : Type} (l : List (String × β)) (k : String)
    (d : β) (h : containsKey l k = false) : lookupD l k d = d := by
  have hall : ∀ p ∈ l, ¬(p.1 == k) = true := by
    intro p hp hpk
    have : containsKey l k = true := List.any_eq_true.mpr ⟨p, hp, hpk⟩
    rw [h] at this
    cases this
  unfold lookupD
  rw [List.find?_eq_none.mpr hall]

/-- C9: normalize_frequencies returns the empty mapping on empty input;
when the maximum frequency is zero every sku maps to exactly 0 with no
division fault; otherwise each sku maps to its frequency divided by the
maximum frequency, and for nonnegative inputs every value lies in
[0, 1]. -/
theorem C9_normalize_frequencies (f : List (String × ℤ))
    (hnn : ∀ p ∈ f, 0 ≤ p.2) :
    normalize_frequencies [] = [] ∧
    (maxVal (f.map Prod.snd) = 0 →
      normalize_frequencies f = f.map (fun p => (p.1, (0 : ℚ)))) ∧
    (maxVal (f.map Prod.snd) ≠ 0 →
      normalize_frequencies f =
        f.map (fun p => (p.1, (p.2 : ℚ) / ((maxVal (f.map Prod.snd) : ℤ) : ℚ)))) ∧
    (∀ q ∈ normalize_frequencies f, 0 ≤ q.2 ∧ q.2 ≤ 1) := by
  refine ⟨rfl, ?_, ?_, ?_⟩
  · intro hm
    cases f with
    | nil => rfl
    | cons p t =>
        rw [List.map_cons] at hm
        simp [normalize_frequencies, hm]
  · intro hm
    cases f with
    | nil => simp [normalize_frequencies]
    | cons p t =>
        rw [List.map_cons] at hm
        simp [normalize_frequencies, hm]
  · intro q hq
    cases f with
    | nil => simp [normalize_frequencies] at hq
    | cons p t =>
        by_cases hm : maxVal ((p :: t).map Prod.snd) = 0
        · simp only [normalize_frequencies, List.isEmpty_cons, hm, if_true,
            Bool.false_eq_true, if_false] at hq
          rcases List.mem_map.mp hq with ⟨a, ha, rfl⟩
          exact ⟨le_refl 0, by norm_num⟩
        · simp only [normalize_frequencies, List.isEmpty_cons, hm, if_false,
            Bool.false_eq_true] at hq
          rcases List.mem_map.mp hq with ⟨a, ha, rfl⟩
          have hle : a.2 ≤ maxVal ((p :: t).map Prod.snd) :=
            mem_le_maxVal _ a.2 (List.mem_map.mpr ⟨a, ha, rfl⟩)
          have ha0 : (0 : ℤ) ≤ a.2 := hnn a ha
          have hm0 : (0 : ℤ) ≤ maxVal ((p :: t).map Prod.snd) := le_trans ha0 hle
          have hmpos : (0 : ℤ) < maxVal ((p :: t).map Prod.snd) :=
            lt_of_le_of_ne hm0 (Ne.symm hm)
          constructor
          · apply div_nonneg
            · exact_mod_cast ha0
            · exact_mod_cast le_of_lt hmpos
          · rw [div_le_one (by exact_mod_cast hmpos)]
            exact_mod_cast hle

/-- Witness for C9 at the concrete mapping {a: 2, b: 1}. -/
theorem C9_normalize_frequencies_witness :
    (∀ p ∈ ([("a", 2), ("b", 1)] : List (String × ℤ)), 0 ≤ p.2) ∧
    (normalize_frequencies [] = [] ∧
     (maxVal (([("a", 2), ("b", 1)] : List (String × ℤ)).map Prod.snd) = 0 →
       normalize_frequencies [("a", 2), ("b", 1)] =
         ([("a", 2), ("b", 1)] : List (String × ℤ)).map (fun p => (p.1, (0 : ℚ)))) ∧
     (maxVal (([("a", 2), ("b", 1)] : List (String × ℤ)).map Prod.snd) ≠ 0 →
       normalize_frequencies [("a", 2), ("b", 1)] =
         ([("a", 2), ("b", 1)] : List (String × ℤ)).map
           (fun p => (p.1, (p.2 : ℚ) /
             ((maxVal (([("a", 2), ("b", 1)] : List (String × ℤ)).map Prod.snd) : ℤ) : ℚ)))) ∧
     (∀ q ∈ normalize_frequencies [("a", 2), ("b", 1)], 0 ≤ q.2 ∧ q.2 ≤ 1)) :=
  ⟨by decide, C9_normalize_frequencies [("a", 2), ("b", 1)] (by decide)⟩

/-- C10: with the vector snapshot never loaded (module state none), the
accessors get_vectors, search_vectors and search_vectors_batch all raise
RuntimeError, for every input. -/
theorem C10_not_loaded_raises :
    get_vectorsE none = Except.error DbError.notLoaded ∧
    (∀ sq q k, search_vectorsE sq none q k = Except.error DbError.notLoaded) ∧
    (∀ sq qs k, search_vectors_batchE sq none qs k = Except.error DbError.notLoaded) :=
  ⟨rfl, fun _ _ _ => rfl, fun _ _ _ => rfl⟩

/-- C6: the run-end counter invariant fails when a batch worker raises.
With one batch of two items whose worker hits the outer except clause
(for example the OpenAI client constructor raising), the worker returns
(0, 2) but never executes the counter-update block, and main folds only
the shared counters into its final totals, so the run reports succeeded
= 0 and failed = 0 for 2 attempted items.  A non-raising worker on the
same batch keeps the invariant. -/
theorem C6_counter_invariant_failing_run :
    runIngestion [["SKU-1", "SKU-2"]] [⟨true, [], []⟩] = (0, 0) ∧
    totalAttempted [["SKU-1", "SKU-2"]] = 2 ∧
    (runIngestion [["SKU-1", "SKU-2"]] [⟨true, [], []⟩]).1 +
      (runIngestion [["SKU-1", "SKU-2"]] [⟨true, [], []⟩]).2 ≠
      totalAttempted [["SKU-1", "SKU-2"]] ∧
    runIngestion [["SKU-1", "SKU-2"]] [⟨false, [true, true], [true, false]⟩] = (1, 1) ∧
    (runIngestion [["SKU-1", "SKU-2"]] [⟨false, [true, true], [true, false]⟩]).1 +
      (runIngestion [["SKU-1", "SKU-2"]] [⟨false, [true, true], [true, false]⟩]).2 =
      totalAttempted [["SKU-1", "SKU-2"]] := by
  decide

/-- C4 counterexample: with empty history and vector results
[(B, 1/2), (A, 1/2)], both skus tie at final_score 3/20, yet
calculate_hybrid_score returns B before A — the dict insertion order —
although A is lexically smaller than B (witnessed on the first
characters), so the claimed ascending-lexical tie-break does not hold. -/
theorem C4_tie_counterexample :
    (calculate_hybrid_core [] [("B", 1/2), ("A", 1/2)] 10).map
        (fun p => (p.1, p.2.1)) = [("B", 3/20), ("A", 3/20)] ∧
    ("A" : String) ≠ "B" ∧ ('A' : Char) < 'B' := by
  refine ⟨?_, by decide, by decide⟩
  norm_num [calculate_hybrid_core, combineScores, addVector, histPhase,
    normalize_frequencies, containsKey, VECTOR_WEIGHT, stableSortBy,
    orderedInsertB, scoreGe]

/-- C4 amended: the ranking of calculate_hybrid_score is descending by
final_score, and entries with exactly equal final_score keep the
insertion order of the combined scores dict (history skus in history
iteration order, then vector-only skus in vector result order) — not
ascending lexical order of sku. -/
theorem C4_tie_insertion_order (histRaw : List (String × ℤ))
    (vres : List (String × ℚ)) (k : ℕ) :
    (stableSortBy scoreGe (combineScores histRaw vres)).Pairwise
      (fun a b => b.2.final_score ≤ a.2.final_score) ∧
    (∀ s : ℚ,
      (stableSortBy scoreGe (combineScores histRaw vres)).filter
        (fun a => decide (a.2.final_score = s)) =
      (combineScores histRaw vres).filter
        (fun a => decide (a.2.final_score = s))) ∧
    calculate_hybrid_core histRaw vres k =
      ((stableSortBy scoreGe (combineScores histRaw vres)).take k).map
        (fun p => (p.1, p.2.final_score, p.2)) := by
  refine ⟨?_, ?_, rfl⟩
  · have h := pairwise_stableSortBy scoreGe (fun _ _ => True)
      (fun a b => by
        rcases le_total b.2.final_score a.2.final_score with hle | hle
        · exact Or.inl (by simpa [scoreGe] using hle)
        · exact Or.inr (by simpa [scoreGe] using hle))
      (fun a b c hab hbc => by
        simp only [scoreGe, decide_eq_true_eq] at hab hbc ⊢
        exact le_trans hbc hab)
      (combineScores histRaw vres) (pairwise_trivial _)
    exact h.imp (fun hab => by
      simpa [scoreGe, decide_eq_true_eq] using hab.1)
  · intro s
    exact filter_stableSortBy scoreGe _ _
      (fun a b ha hb => by
        simp only [decide_eq_true_eq] at ha hb
        simp [scoreGe, ha, hb])

theorem lookupD_cons {β : Type} (p : String × β) (t : List (String × β))
    (k : String) (d : β) :
    lookupD (p :: t) k d = if p.1 == k then p.2 else lookupD t k d := by
  unfold lookupD
  cases h : p.1 == k
  · simp [List.find?, h]
  · simp [List.find?, h]

theorem lastValD_append (vs : List (String × ℚ)) (v : String × ℚ)
    (k : String) (d : ℚ) :
    lastValD (vs ++ [v]) k d = if v.1 == k then v.2 else lastValD vs k d := by
  unfold lastValD
  rw [List.reverse_append]
  simp only [List.reverse_cons, List.reverse_nil, List.nil_append,
    List.singleton_append]
  exact lookupD_cons v vs.reverse k d

theorem normalize_keys (f : List (String × ℤ)) :
    (normalize_frequencies f).map Prod.fst = f.map Prod.fst := by
  cases f with
  | nil => rfl
  | cons p t =>
      unfold normalize_frequencies
      simp only [List.isEmpty_cons, Bool.false_eq_true, if_false, List.map_cons]
      by_cases hm : maxVal (p.2 :: t.map Prod.snd) = 0 <;>
        simp [hm, List.map_map, Function.comp]

theorem containsKey_map_fst_preserving {β γ : Type} (g : String × β → String × γ)
    (hg : ∀ p, (g p).1 = p.1) (l : List (String × β)) (k : String) :
    containsKey (l.map g) k = containsKey l k := by
  induction l with
  | nil => rfl
  | cons p t ih =>
      simp only [containsKey, List.map_cons, List.any_cons] at *
      rw [hg p, ih]

theorem containsKey_histPhase (histRaw : List (String × ℤ)) (k : String) :
    containsKey (histPhase histRaw) k =
      containsKey (normalize_frequencies histRaw) k := by
  unfold histPhase containsKey
  generalize normalize_frequencies histRaw = l
  induction l with
  | nil => rfl
  | cons p t ih =>
      simp only [List.map_cons, List.any_cons]
      rw [ih]

theorem containsKey_of_mem {β : Type} (l : List (String × β)) (s : String)
    (r : β) (h : (s, r) ∈ l) : containsKey l s = true :=
  List.any_eq_true.mpr ⟨(s, r), h, by simp⟩

theorem containsKey_updateMap (acc : List (String × ScoreRec)) (v : String × ℚ)
    (sku : String) :
    containsKey (acc.map (fun p =>
      if p.1 == v.1 then
        (p.1,
          { p.2 with
            vector_score := v.2 * VECTOR_WEIGHT
            vector_similarity := v.2
            final_score := p.2.historical_score + v.2 * VECTOR_WEIGHT })
      else p)) sku = containsKey acc sku := by
  induction acc with
  | nil => rfl
  | cons p t ih =>
      unfold containsKey at ih ⊢
      simp only [List.map_cons, List.any_cons]
      rw [ih]
      by_cases hp : p.1 == v.1 <;> simp [hp]

theorem containsKey_addVector (acc : List (String × ScoreRec)) (v : String × ℚ)
    (sku : String) (h : containsKey acc sku = true) :
    containsKey (addVector acc v) sku = true := by
  unfold addVector
  by_cases hc : containsKey acc v.1
  · rw [if_pos hc, containsKey_updateMap]
    exact h
  · rw [if_neg hc]
    unfold containsKey at h ⊢
    rw [List.any_append, h]
    rfl

/-- Per-record characterisation of the combined scores dict: every record
carries historical_score = normalizedFreq * 0.7 (0 when the sku is not in
the history), vector_score = 0.3 times the last vector similarity
reported for the sku (0 when absent, later duplicates overwriting), and
final_score = historical_score + vector_score exactly. -/
theorem combineScores_spec (histRaw : List (String × ℤ))
    (hnd : (histRaw.map Prod.fst).Nodup) (vres : List (String × ℚ)) :
    (∀ sku, containsKey (histPhase histRaw) sku = true →
      containsKey (combineScores histRaw vres) sku = true) ∧
    (∀ sku rec, (sku, rec) ∈ combineScores histRaw vres →
      rec.historical_score =
        lookupD (normalize_frequencies histRaw) sku 0 * HISTORY_WEIGHT ∧
      rec.vector_score = lastValD vres sku 0 * VECTOR_WEIGHT ∧
      rec.final_score = rec.historical_score + rec.vector_score) := by
  have hndn : ((normalize_frequencies histRaw).map Prod.fst).Nodup := by
    rw [normalize_keys]
    exact hnd
  induction vres using List.reverseRecOn with
  | nil =>
      constructor
      · intro sku h
        exact h
      · intro sku rec hmem
        unfold combineScores at hmem
        simp only [List.foldl_nil] at hmem
        unfold histPhase at hmem
        rcases List.mem_map.mp hmem with ⟨⟨ps, pf⟩, hp, heq⟩
        simp only [Prod.mk.injEq] at heq
        obtain ⟨h1, h2⟩ := heq
        subst h1
        subst h2
        have hlook : lookupD (normalize_frequencies histRaw) ps 0 = pf :=
          lookupD_eq_of_mem _ ps pf 0 hndn hp
        refine ⟨?_, ?_, ?_⟩
        · show pf * HISTORY_WEIGHT =
            lookupD (normalize_frequencies histRaw) ps 0 * HISTORY_WEIGHT
          rw [hlook]
        · show (0 : ℚ) = (0 : ℚ) * VECTOR_WEIGHT
          rw [zero_mul]
        · show pf * HISTORY_WEIGHT = pf * HISTORY_WEIGHT + 0
          rw [add_zero]
  | append_singleton vs v ih =>
      have hstep : combineScores histRaw (vs ++ [v]) =
          addVector (combineScores histRaw vs) v := by
        unfold combineScores
        rw [List.foldl_append, List.foldl_cons, List.foldl_nil]
      rcases ih with ⟨ih1, ih2⟩
      constructor
      · intro sku h
        rw [hstep]
        exact containsKey_addVector _ v sku (ih1 sku h)
      · intro sku rec hmem
        rw [hstep] at hmem
        unfold addVector at hmem
        by_cases hc : containsKey (combineScores histRaw vs) v.1 = true
        · rw [if_pos hc] at hmem
          rcases List.mem_map.mp hmem with ⟨⟨qs, qr⟩, hq, heq⟩
          by_cases hqv : (qs == v.1) = true
          · simp only [hqv, if_true, Prod.mk.injEq] at heq
            obtain ⟨h1, h2⟩ := heq
            subst h1
            subst h2
            rcases ih2 qs qr hq with ⟨ha, _, _⟩
            have hkey : (v.1 == qs) = true := by
              rw [beq_iff_eq] at hqv ⊢
              exact hqv.symm
            refine ⟨ha, ?_, rfl⟩
            show v.2 * VECTOR_WEIGHT = lastValD (vs ++ [v]) qs 0 * VECTOR_WEIGHT
            rw [lastValD_append, if_pos hkey]
          · simp only [hqv, Bool.false_eq_true, if_false, Prod.mk.injEq] at heq
            obtain ⟨h1, h2⟩ := heq
            subst h1
            subst h2
            rcases ih2 qs qr hq with ⟨ha, hb, hcf⟩
            have hkey : (v.1 == qs) = false := by
              rw [Bool.not_eq_true] at hqv
              rw [beq_eq_false_iff_ne] at hqv ⊢
              exact fun hh => hqv hh.symm
            refine ⟨ha, ?_, hcf⟩
            rw [lastValD_append, if_neg (by simp [hkey]), hb]
        · rw [if_neg hc] at hmem
          rcases List.mem_append.mp hmem with hin | hnew
          · have hne : (v.1 == sku) = false := by
              rw [beq_eq_false_iff_ne]
              intro hh
              exact hc (by rw [hh]; exact containsKey_of_mem _ sku rec hin)
            rcases ih2 sku rec hin with ⟨ha, hb, hcf⟩
            refine ⟨ha, ?_, hcf⟩
            rw [lastValD_append, if_neg (by simp [hne]), hb]
          · rw [List.mem_singleton, Prod.mk.injEq] at hnew
            obtain ⟨h1, h2⟩ := hnew
            subst h1
            subst h2
            have hhist : containsKey (normalize_frequencies histRaw) v.1 = false := by
              cases hcc : containsKey (normalize_frequencies histRaw) v.1
              · rfl
              · exfalso
                apply hc
                apply ih1
                rw [containsKey_histPhase]
                exact hcc
            have hlook : lookupD (normalize_frequencies histRaw) v.1 0 = 0 :=
              lookupD_eq_default _ v.1 (0 : ℚ) hhist
            refine ⟨?_, ?_, ?_⟩
            · show (0 : ℚ) =
                lookupD (normalize_frequencies histRaw) v.1 0 * HISTORY_WEIGHT
              rw [hlook, zero_mul]
            · show v.2 * VECTOR_WEIGHT = lastValD (vs ++ [v]) v.1 0 * VECTOR_WEIGHT
              rw [lastValD_append, if_pos (beq_iff_eq.mpr rfl)]
            · show v.2 * VECTOR_WEIGHT = 0 + v.2 * VECTOR_WEIGHT
              rw [zero_add]

/-- C1: the combine step of calculate_hybrid_score gives every sku
historical_score = normalizedFreq * 0.7 (0 when the sku is absent from
the history), vector_score = similarity * 0.3 (0 when absent from the
vector results; a repeated vector entry overwrites the previous value —
lastValD — and leaves historical_score untouched), and final_score =
historical_score + vector_score exactly; and the worked example with raw
history {SKU-A: 5, SKU-B: 1} (normalized {SKU-A: 1, SKU-B: 0.2}) and
vector results [(SKU-A, 0.9), (SKU-C, 0.5)] yields final scores
SKU-A = 0.97, SKU-C = 0.15, SKU-B = 0.14 in that order. -/
theorem C1_combine_scores (histRaw : List (String × ℤ))
    (vres : List (String × ℚ)) (hnd : (histRaw.map Prod.fst).Nodup) :
    (∀ sku rec, (sku, rec) ∈ combineScores histRaw vres →
      rec.historical_score =
        lookupD (normalize_frequencies histRaw) sku 0 * HISTORY_WEIGHT ∧
      rec.vector_score = lastValD vres sku 0 * VECTOR_WEIGHT ∧
      rec.final_score = rec.historical_score + rec.vector_score) ∧
    (calculate_hybrid_core [("SKU-A", 5), ("SKU-B", 1)]
        [("SKU-A", 9/10), ("SKU-C", 1/2)] 10).map (fun p => (p.1, p.2.1)) =
      [("SKU-A", 97/100), ("SKU-C", 3/20), ("SKU-B", 7/50)] := by
  refine ⟨(combineScores_spec histRaw hnd vres).2, ?_⟩
  have d1 : (("SKU-A" : String) = "SKU-B") = False := eq_false (by decide)
  have d2 : (("SKU-B" : String) = "SKU-A") = False := eq_false (by decide)
  have d3 : (("SKU-A" : String) = "SKU-C") = False := eq_false (by decide)
  have d4 : (("SKU-C" : String) = "SKU-A") = False := eq_false (by decide)
  have d5 : (("SKU-B" : String) = "SKU-C") = False := eq_false (by decide)
  have d6 : (("SKU-C" : String) = "SKU-B") = False := eq_false (by decide)
  have b1 : (("SKU-A" : String) == "SKU-B") = false := by decide
  have b2 : (("SKU-B" : String) == "SKU-A") = false := by decide
  have b3 : (("SKU-A" : String) == "SKU-C") = false := by decide
  have b4 : (("SKU-C" : String) == "SKU-A") = false := by decide
  have b5 : (("SKU-B" : String) == "SKU-C") = false := by decide
  have b6 : (("SKU-C" : String) == "SKU-B") = false := by decide
  norm_num [calculate_hybrid_core, combineScores, addVector, histPhase,
    normalize_frequencies, containsKey, VECTOR_WEIGHT, HISTORY_WEIGHT, maxVal,
    lookupD, List.find?, stableSortBy, orderedInsertB, scoreGe,
    d1, d2, d3, d4, d5, d6, b1, b2, b3, b4, b5, b6]

/-- Witness for C1 at the worked-example inputs. -/
theorem C1_combine_scores_witness :
    ((([("SKU-A", 5), ("SKU-B", 1)] : List (String × ℤ)).map Prod.fst).Nodup) ∧
    ((∀ sku rec, (sku, rec) ∈ combineScores [("SKU-A", 5), ("SKU-B", 1)]
          [("SKU-A", 9/10), ("SKU-C", 1/2)] →
        rec.historical_score =
          lookupD (normalize_frequencies [("SKU-A", 5), ("SKU-B", 1)]) sku 0 *
            HISTORY_WEIGHT ∧
        rec.vector_score =
          lastValD [("SKU-A", 9/10), ("SKU-C", 1/2)] sku 0 * VECTOR_WEIGHT ∧
        rec.final_score = rec.historical_score + rec.vector_score) ∧
     (calculate_hybrid_core [("SKU-A", 5), ("SKU-B", 1)]
        [("SKU-A", 9/10), ("SKU-C", 1/2)] 10).map (fun p => (p.1, p.2.1)) =
      [("SKU-A", 97/100), ("SKU-C", 3/20), ("SKU-B", 7/50)]) :=
  ⟨by decide, C1_combine_scores [("SKU-A", 5), ("SKU-B", 1)]
      [("SKU-A", 9/10), ("SKU-C", 1/2)] (by decide)⟩

theorem vector_score_zero_of_core (h : List (String × ℤ)) (k : ℕ)
    (r : String × ℚ × ScoreRec) (hr : r ∈ calculate_hybrid_core h [] k) :
    r.2.2.vector_score = 0 := by
  unfold calculate_hybrid_core at hr
  rcases List.mem_map.mp hr with ⟨q, hq, heq⟩
  have hq2 : q ∈ stableSortBy scoreGe (combineScores h []) :=
    List.mem_of_mem_take hq
  have hq3 : q ∈ combineScores h [] := (mem_stableSortBy _ _ _).mp hq2
  unfold combineScores at hq3
  simp only [List.foldl_nil] at hq3
  unfold histPhase at hq3
  rcases List.mem_map.mp hq3 with ⟨p, hp, heq2⟩
  rw [← heq, ← heq2]

/-- C8: query operations never surface an exception for no-match or
embedding-service failure: get_suggestions is a total function of its
(possibly failing) dependencies — the catch-all handler of the source can
never fire — and on embedding failure (and likewise on search failure)
every returned suggestion is scored on history alone with
vector_score = 0; with empty history it degrades to the empty list. -/
theorem C8_degrades_without_exception (histRaw : List (String × ℤ))
    (sv : List ℚ → ℕ → Except Unit (List (String × ℚ)))
    (getItem : String → Option Item) (k : ℕ) (v : List ℚ) :
    (∀ s ∈ get_suggestions histRaw (Except.error ()) sv getItem k,
      s.vector_score = 0) ∧
    (∀ s ∈ get_suggestions histRaw (Except.ok v)
        (fun _ _ => Except.error ()) getItem k, s.vector_score = 0) ∧
    get_suggestions [] (Except.error ()) sv getItem k = [] ∧
    get_suggestions [] (Except.ok v) (fun _ _ => Except.ok []) getItem k = [] := by
  have hmain : ∀ (embed : Except Unit (List ℚ))
      (sv2 : List ℚ → ℕ → Except Unit (List (String × ℚ))),
      calculate_hybrid_score histRaw embed sv2 k = calculate_hybrid_core histRaw [] k →
      ∀ s ∈ get_suggestions histRaw embed sv2 getItem k, s.vector_score = 0 := by
    intro embed sv2 hcalc s hs
    unfold get_suggestions at hs
    rcases List.mem_filterMap.mp hs with ⟨r, hr, hfn⟩
    rw [hcalc] at hr
    cases hgi : getItem r.1 with
    | none => rw [hgi] at hfn; cases hfn
    | some it =>
        rw [hgi] at hfn
        have hs2 := Option.some.inj hfn
        rw [← hs2]
        exact vector_score_zero_of_core histRaw k r hr
  have hempty : calculate_hybrid_core ([] : List (String × ℤ)) [] k = [] := by
    unfold calculate_hybrid_core combineScores histPhase normalize_frequencies
    simp [stableSortBy]
  refine ⟨hmain (Except.error ()) sv rfl,
    hmain (Except.ok v) (fun _ _ => Except.error ()) rfl, ?_, ?_⟩
  · unfold get_suggestions
    rw [show calculate_hybrid_score ([] : List (String × ℤ)) (Except.error ()) sv k =
        calculate_hybrid_core [] [] k from rfl, hempty]
    rfl
  · unfold get_suggestions
    rw [show calculate_hybrid_score ([] : List (String × ℤ)) (Except.ok v)
        (fun _ _ => Except.ok []) k = calculate_hybrid_core [] [] k from rfl, hempty]
    rfl

/-- Witness for C8 at concrete failing dependencies. -/
theorem C8_degrades_without_exception_witness :
    (∀ s ∈ get_suggestions [("SKU-A", 3)] (Except.error ())
        (fun _ _ => Except.ok [("SKU-B", 1/2)])
        (fun sku => some ⟨sku, none, none⟩) 3, s.vector_score = 0) ∧
    get_suggestions [] (Except.error ())
        (fun _ _ => Except.ok [("SKU-B", 1/2)])
        (fun sku => some ⟨sku, none, none⟩) 3 = [] :=
  ⟨(C8_degrades_without_exception [("SKU-A", 3)]
      (fun _ _ => Except.ok [("SKU-B", 1/2)])
      (fun sku => some ⟨sku, none, none⟩) 3 []).1,
   (C8_degrades_without_exception []
      (fun _ _ => Except.ok [("SKU-B", 1/2)])
      (fun sku => some ⟨sku, none, none⟩) 3 []).2.2.1⟩

theorem leV_total (x y : Option ℚ) : leV x y = true ∨ leV y x = true := by
  cases x <;> cases y <;> simp [leV]
  exact le_total _ _

theorem leV_trans (x y z : Option ℚ) (h1 : leV x y = true) (h2 : leV y z = true) :
    leV x z = true := by
  cases x <;> cases y <;> cases z <;> simp [leV] at *
  exact le_trans h1 h2

theorem getD_map_lt {α β : Type} (f : α → β) (l : List α) (i : ℕ) (d : β)
    (d2 : α) (hi : i < l.length) : (l.map f).getD i d = f (l.getD i d2) := by
  induction l generalizing i with
  | nil => cases hi
  | cons x t ih =>
      cases i with
      | zero => rfl
      | succ n => exact ih n (Nat.lt_of_succ_lt_succ hi)

theorem getD_mem {α : Type} (l : List α) (i : ℕ) (d : α) (hi : i < l.length) :
    l.getD i d ∈ l := by
  induction l generalizing i with
  | nil => cases hi
  | cons x t ih =>
      cases i with
      | zero => exact List.mem_cons_self x t
      | succ n => exact List.mem_cons_of_mem x (ih n (Nat.lt_of_succ_lt_succ hi))

theorem simVals_length (sq : ℚ → ℚ) (rows : List (List ℚ)) (q : List ℚ) :
    (simVals sq rows q).length = rows.length := by
  simp [simVals]

theorem simVals_some (sq : ℚ → ℚ) (rows : List (List ℚ)) (q : List ℚ) (i : ℕ)
    (hi : i < rows.length)
    (hnz : ∀ r ∈ rows, sq (normSq r) * sq (normSq q) ≠ 0) :
    (simVals sq rows q).getD i none =
      some (dotL (rows.getD i []) q /
        (sq (normSq (rows.getD i [])) * sq (normSq q))) := by
  unfold simVals
  rw [getD_map_lt _ _ i none [] hi]
  have hd := hnz (rows.getD i []) (getD_mem rows i [] hi)
  show (if sq (normSq (rows.getD i [])) * sq (normSq q) = 0 then none
    else some (dotL (rows.getD i []) q /
      (sq (normSq (rows.getD i [])) * sq (normSq q)))) = _
  rw [if_neg hd]

theorem mem_argsortAsc_lt (sims : List (Option ℚ)) (i : ℕ)
    (h : i ∈ argsortAsc sims) : i < sims.length := by
  unfold argsortAsc at h
  rw [mem_stableSortBy] at h
  exact List.mem_range.mp h

/-- C2 amended: for loaded snapshots whose rows and query have nonzero
norms (so no NaN appears), search_vectors returns at most k pairs,
ordered descending by similarity, and on an exact similarity tie the row
with the LARGER original index comes first — np.argsort ascending
(modelled stable) is reversed wholesale, so last-loaded wins, the
opposite of the claimed ascending-row-index tie-break. -/
theorem C2_search_ordering (sq : ℚ → ℚ) (snap : Snapshot) (q : List ℚ) (k : ℕ)
    (hnz : ∀ r ∈ snap.rows, sq (normSq r) * sq (normSq q) ≠ 0) :
    (search_vectors sq snap q k).length ≤ k ∧
    ((argsortAsc (simVals sq snap.rows q)).reverse.take k).Pairwise
      (fun i j => ∃ a b : ℚ,
        (simVals sq snap.rows q).getD i none = some a ∧
        (simVals sq snap.rows q).getD j none = some b ∧
        (b < a ∨ (b = a ∧ j < i))) ∧
    search_vectors sq snap q k =
      ((argsortAsc (simVals sq snap.rows q)).reverse.take k).map
        (fun i => (snap.skus.getD i "", (simVals sq snap.rows q).getD i none)) := by
  refine ⟨?_, ?_, rfl⟩
  · unfold search_vectors rankBySims
    rw [List.length_map]
    exact List.length_take_le k _
  · have hsort := pairwise_stableSortBy
      (fun i j => leV ((simVals sq snap.rows q).getD i none)
        ((simVals sq snap.rows q).getD j none))
      (fun i j => i < j)
      (fun i j => leV_total _ _)
      (fun i j l => leV_trans _ _ _)
      (List.range (simVals sq snap.rows q).length)
      (List.pairwise_lt_range _)
    have hrev : ((argsortAsc (simVals sq snap.rows q)).reverse).Pairwise
        (fun i j =>
          (leV ((simVals sq snap.rows q).getD j none)
            ((simVals sq snap.rows q).getD i none) = true) ∧
          (leV ((simVals sq snap.rows q).getD i none)
            ((simVals sq snap.rows q).getD j none) = true → j < i)) := by
      rw [List.pairwise_reverse]
      exact hsort
    have htake := hrev.sublist (List.take_sublist k _)
    refine htake.imp_of_mem ?_
    intro i j hi hj hQ
    have hi2 : i < snap.rows.length := by
      rw [← simVals_length sq snap.rows q]
      exact mem_argsortAsc_lt _ i (List.mem_reverse.mp (List.mem_of_mem_take hi))
    have hj2 : j < snap.rows.length := by
      rw [← simVals_length sq snap.rows q]
      exact mem_argsortAsc_lt _ j (List.mem_reverse.mp (List.mem_of_mem_take hj))
    have hsi := simVals_some sq snap.rows q i hi2 hnz
    have hsj := simVals_some sq snap.rows q j hj2 hnz
    refine ⟨_, _, hsi, hsj, ?_⟩
    rcases hQ with ⟨hba, himp⟩
    rw [hsi, hsj] at hba himp
    simp only [leV, decide_eq_true_eq] at hba himp
    by_cases hab : dotL (snap.rows.getD i []) q /
        (sq (normSq (snap.rows.getD i [])) * sq (normSq q)) ≤
        dotL (snap.rows.getD j []) q /
        (sq (normSq (snap.rows.getD j [])) * sq (normSq q))
    · exact Or.inr ⟨le_antisymm hba hab, himp hab⟩
    · exact Or.inl (not_le.mp hab)

/-- Witness for C2 amended, with a one-row snapshot of norm 5. -/
theorem C2_search_ordering_witness :
    (∀ r ∈ ([[3, 4]] : List (List ℚ)),
      (fun x : ℚ => if x = 25 then (5 : ℚ) else 0) (normSq r) *
        (fun x : ℚ => if x = 25 then (5 : ℚ) else 0) (normSq [3, 4]) ≠ 0) ∧
    ((search_vectors (fun x : ℚ => if x = 25 then (5 : ℚ) else 0)
        ⟨[[3, 4]], ["A"], ["x"]⟩ [3, 4] 1).length ≤ 1 ∧
     ((argsortAsc (simVals (fun x : ℚ => if x = 25 then (5 : ℚ) else 0)
          [[3, 4]] [3, 4])).reverse.take 1).Pairwise
       (fun i j => ∃ a b : ℚ,
         (simVals (fun x : ℚ => if x = 25 then (5 : ℚ) else 0)
           [[3, 4]] [3, 4]).getD i none = some a ∧
         (simVals (fun x : ℚ => if x = 25 then (5 : ℚ) else 0)
           [[3, 4]] [3, 4]).getD j none = some b ∧
         (b < a ∨ (b = a ∧ j < i))) ∧
     search_vectors (fun x : ℚ => if x = 25 then (5 : ℚ) else 0)
        ⟨[[3, 4]], ["A"], ["x"]⟩ [3, 4] 1 =
       ((argsortAsc (simVals (fun x : ℚ => if x = 25 then (5 : ℚ) else 0)
          [[3, 4]] [3, 4])).reverse.take 1).map
         (fun i => ((["A"] : List String).getD i "",
           (simVals (fun x : ℚ => if x = 25 then (5 : ℚ) else 0)
             [[3, 4]] [3, 4]).getD i none))) :=
  ⟨by
      intro r hr
      rw [List.mem_singleton] at hr
      subst hr
      norm_num [normSq, dotL],
   C2_search_ordering (fun x : ℚ => if x = 25 then (5 : ℚ) else 0)
      ⟨[[3, 4]], ["A"], ["x"]⟩ [3, 4] 1
      (by
        intro r hr
        rw [List.mem_singleton] at hr
        subst hr
        norm_num [normSq, dotL])⟩

/-- C2 counterexample: a snapshot with two identical rows and the
matching query gives both rows similarity 1 exactly; the returned order
is row 1 (sku B) before row 0 (sku A), i.e. the larger original row
index first, contradicting the claimed smaller-index-first tie-break. -/
theorem C2_tie_counterexample :
    search_vectors (fun x : ℚ => if x = 1 then 1 else 0)
      ⟨[[1], [1]], ["A", "B"], ["a", "b"]⟩ [1] 2 =
      [("B", some 1), ("A", some 1)] := by
  norm_num [search_vectors, rankBySims, simVals, argsortAsc, normSq, dotL,
    stableSortBy, orderedInsertB, leV]

theorem dotL_comm (v w : List ℚ) : dotL v w = dotL w v := by
  induction v generalizing w with
  | nil => cases w <;> rfl
  | cons x xs ih =>
      cases w with
      | nil => rfl
      | cons y ys =>
          show x * y + dotL xs ys = y * x + dotL ys xs
          rw [mul_comm, ih]

theorem batchSimVals_eq_simVals (sq : ℚ → ℚ) (rows : List (List ℚ)) (q : List ℚ)
    (hrows : ∀ r ∈ rows, sq (normSq r) ≠ 0) (hq : sq (normSq q) ≠ 0) :
    batchSimVals sq rows q = simVals sq rows q := by
  unfold batchSimVals simVals
  apply List.map_congr_left
  intro r hr
  have h1 := hrows r hr
  show some (dotL q r / (guardedNorm sq q * guardedNorm sq r)) =
    (if sq (normSq r) * sq (normSq q) = 0 then none
     else some (dotL r q / (sq (normSq r) * sq (normSq q))))
  unfold guardedNorm
  rw [if_neg hq, if_neg h1, if_neg (mul_ne_zero h1 hq), dotL_comm, mul_comm]

/-- C3 amended: search_vectors_batch agrees element-for-element with
search_vectors on every query whenever the query norms and all snapshot
row norms are nonzero; for a zero-norm query (or row) the two paths
differ — the batch path substitutes 1e-10 and returns similarity 0 while
the single path divides by zero and returns NaN. -/
theorem C3_batch_equiv (sq : ℚ → ℚ) (snap : Snapshot) (qs : List (List ℚ))
    (k : ℕ) (hrows : ∀ r ∈ snap.rows, sq (normSq r) ≠ 0)
    (hqs : ∀ q ∈ qs, sq (normSq q) ≠ 0) :
    search_vectors_batch sq snap qs k =
      qs.map (fun q => search_vectors sq snap q k) := by
  unfold search_vectors_batch
  by_cases hq : qs.isEmpty
  · rw [if_pos hq]
    rw [List.isEmpty_iff] at hq
    rw [hq]
    rfl
  · rw [if_neg hq]
    apply List.map_congr_left
    intro q hqm
    unfold search_vectors
    rw [batchSimVals_eq_simVals sq snap.rows q hrows (hqs q hqm)]

/-- Witness for C3 amended, on a one-row snapshot and one unit query. -/
theorem C3_batch_equiv_witness :
    ((∀ r ∈ ([[1]] : List (List ℚ)),
        (fun x : ℚ => if x = 1 then 1 else 0) (normSq r) ≠ 0) ∧
     (∀ q ∈ ([[1]] : List (List ℚ)),
        (fun x : ℚ => if x = 1 then 1 else 0) (normSq q) ≠ 0)) ∧
    search_vectors_batch (fun x : ℚ => if x = 1 then 1 else 0)
        ⟨[[1]], ["A"], ["a"]⟩ [[1]] 1 =
      ([[1]] : List (List ℚ)).map
        (fun q => search_vectors (fun x : ℚ => if x = 1 then 1 else 0)
          ⟨[[1]], ["A"], ["a"]⟩ q 1) :=
  ⟨⟨by
      intro r hr
      rw [List.mem_singleton] at hr
      subst hr
      norm_num [normSq, dotL],
    by
      intro q hq
      rw [List.mem_singleton] at hq
      subst hq
      norm_num [normSq, dotL]⟩,
   C3_batch_equiv (fun x : ℚ => if x = 1 then 1 else 0)
      ⟨[[1]], ["A"], ["a"]⟩ [[1]] 1
      (by
        intro r hr
        rw [List.mem_singleton] at hr
        subst hr
        norm_num [normSq, dotL])
      (by
        intro q hq
        rw [List.mem_singleton] at hq
        subst hq
        norm_num [normSq, dotL])⟩

/-- C3 counterexample: on the zero query vector the batch path returns
similarity 0 exactly (thanks to its 1e-10 guard) while the single-query
path divides by zero and returns NaN (none), so
searchBatch(Q, k)[0] differs from search(Q[0], k). -/
theorem C3_zero_query_counterexample :
    search_vectors_batch (fun x : ℚ => if x = 1 then 1 else 0)
        ⟨[[1]], ["A"], ["a"]⟩ [[0]] 1 = [[("A", some 0)]] ∧
    search_vectors (fun x : ℚ => if x = 1 then 1 else 0)
        ⟨[[1]], ["A"], ["a"]⟩ [0] 1 = [("A", none)] ∧
    ([[("A", (some 0 : Option ℚ))]] : List (List (String × Option ℚ))) ≠
      [[("A", none)]] := by
  refine ⟨?_, ?_, by simp⟩
  · norm_num [search_vectors_batch, rankBySims, batchSimVals, guardedNorm,
      epsGuard, argsortAsc, normSq, dotL, stableSortBy, orderedInsertB, leV]
  · norm_num [search_vectors, rankBySims, simVals, argsortAsc, normSq, dotL,
      stableSortBy, orderedInsertB, leV]

theorem normSq_of_zero (w : List ℚ) (h : ∀ x ∈ w, x = 0) : normSq w = 0 := by
  induction w with
  | nil => rfl
  | cons x t ih =>
      have hx : x = 0 := h x (by simp)
      have ht : normSq t = 0 := ih (fun y hy => h y (by simp [hy]))
      show x * x + normSq t = 0
      rw [hx, ht, mul_zero, add_zero]

/-- C5 amended: cosine_similarity returns exactly 0.0 when either operand
is a zero vector, thanks to its explicit guard; but search_vectors has no
such guard — its similarity array contains a NaN (a 0/0 division) exactly
when some snapshot row norm or the query norm maps to zero under the
square root. -/
theorem C5_cosine_zero_guard (sq : ℚ → ℚ) (hsq0 : sq 0 = 0) (v w : List ℚ)
    (hw : ∀ x ∈ w, x = 0) (rows : List (List ℚ)) (q : List ℚ) :
    cosine_similarity sq v w = 0 ∧ cosine_similarity sq w v = 0 ∧
    (none ∈ simVals sq rows q ↔
      ∃ r ∈ rows, sq (normSq r) * sq (normSq q) = 0) := by
  have hnw : sq (normSq w) = 0 := by rw [normSq_of_zero w hw, hsq0]
  refine ⟨?_, ?_, ?_⟩
  · unfold cosine_similarity
    rw [if_pos (Or.inr hnw)]
  · unfold cosine_similarity
    rw [if_pos (Or.inl hnw)]
  · unfold simVals
    rw [List.mem_map]
    constructor
    · rintro ⟨r, hr, heq⟩
      refine ⟨r, hr, ?_⟩
      by_contra hne
      simp [hne] at heq
    · rintro ⟨r, hr, hd⟩
      refine ⟨r, hr, ?_⟩
      show (if sq (normSq r) * sq (normSq q) = 0 then none
        else some (dotL r q / (sq (normSq r) * sq (normSq q)))) = none
      rw [if_pos hd]

/-- Witness for C5 amended at concrete vectors. -/
theorem C5_cosine_zero_guard_witness :
    ((fun x : ℚ => if x = 1 then 1 else 0) 0 = 0 ∧
     (∀ x ∈ ([0] : List ℚ), x = 0)) ∧
    (cosine_similarity (fun x : ℚ => if x = 1 then 1 else 0) [1] [0] = 0 ∧
     cosine_similarity (fun x : ℚ => if x = 1 then 1 else 0) [0] [1] = 0 ∧
     (none ∈ simVals (fun x : ℚ => if x = 1 then 1 else 0) [[1]] [0] ↔
       ∃ r ∈ ([[1]] : List (List ℚ)),
         (if normSq r = 1 then (1 : ℚ) else 0) *
           (if normSq [0] = 1 then (1 : ℚ) else 0) = 0)) :=
  by
  refine ⟨⟨by norm_num, ?_⟩, ?_⟩
  · intro x hx
    rw [List.mem_singleton] at hx
    exact hx
  · exact C5_cosine_zero_guard (fun x : ℚ => if x = 1 then 1 else 0)
      (by norm_num) [1] [0]
      (by
        intro x hx
        rw [List.mem_singleton] at hx
        exact hx)
      [[1]] [0]

/-- C5 counterexample: for the zero query vector against a nonzero row,
search_vectors performs a 0/0 division — the similarity array is [NaN]
and the NaN is returned to the caller — so the claim that search_vectors
never divides by zero is false (only cosine_similarity has the guard). -/
theorem C5_division_by_zero_counterexample :
    simVals (fun x : ℚ => if x = 1 then 1 else 0) [[1]] [0] = [none] ∧
    search_vectors (fun x : ℚ => if x = 1 then 1 else 0)
      ⟨[[1]], ["A"], ["a"]⟩ [0] 1 = [("A", none)] := by
  constructor <;>
    norm_num [simVals, search_vectors, rankBySims, argsortAsc, normSq, dotL,
      stableSortBy, orderedInsertB, leV]

theorem foldl_log_aux {α : Type} (service : List String → Option (List (ℕ × α)))
    (cs : List (List String)) (a : List (Option α)) (l : List (List String)) :
    cs.foldl (fun acc c => (acc.1 ++ processChunk service c, acc.2 ++ [c])) (a, l) =
      (a ++ (cs.map (processChunk service)).flatten, l ++ cs) := by
  induction cs generalizing a l with
  | nil => simp
  | cons c t ih => simp [ih, List.append_assoc]

theorem chunksOf_flatten_aux {α : Type} (B : ℕ) (hB : 0 < B) (n : ℕ) :
    ∀ l : List α, l.length ≤ n → (chunksOf B l).flatten = l := by
  induction n with
  | zero =>
      intro l hl
      have hnil : l = [] := List.length_eq_zero.mp (Nat.le_zero.mp hl)
      subst hnil
      rw [chunksOf]
      simp
  | succ n ih =>
      intro l hl
      rw [chunksOf]
      by_cases h0 : l.isEmpty || B == 0
      · rw [if_pos h0]
        rcases Bool.or_eq_true_iff.mp h0 with h | h
        · rw [List.isEmpty_iff.mp h]
          rfl
        · have hB0 : B = 0 := by simpa using h
          omega
      · rw [if_neg h0]
        rw [List.flatten_cons]
        rw [ih (l.drop B) ?_]
        · exact List.take_append_drop B l
        · rw [List.length_drop]
          omega

theorem chunksOf_flatten {α : Type} (B : ℕ) (hB : 0 < B) (l : List α) :
    (chunksOf B l).flatten = l :=
  chunksOf_flatten_aux B hB l.length l (le_refl _)

theorem chunksOf_mem_aux {α : Type} (B : ℕ) (hB : 0 < B) (n : ℕ) :
    ∀ l : List α, l.length ≤ n → ∀ c ∈ chunksOf B l, c.length ≤ B ∧ c ≠ [] := by
  induction n with
  | zero =>
      intro l hl c hc
      have hnil : l = [] := List.length_eq_zero.mp (Nat.le_zero.mp hl)
      subst hnil
      rw [chunksOf] at hc
      simp at hc
  | succ n ih =>
      intro l hl c hc
      rw [chunksOf] at hc
      by_cases h0 : l.isEmpty || B == 0
      · rw [if_pos h0] at hc
        cases hc
      · rw [if_neg h0] at hc
        have hne : l ≠ [] := by
          intro hl0
          apply h0
          rw [hl0]
          simp
        rcases List.mem_cons.mp hc with rfl | hc2
        · refine ⟨List.length_take_le B l, ?_⟩
          intro htk
          rcases List.take_eq_nil_iff.mp htk with h | h
          · exact Nat.pos_iff_ne_zero.mp hB h
          · exact hne h
        · refine ih (l.drop B) ?_ c hc2
          rw [List.length_drop]
          omega

theorem chunksOf_mem {α : Type} (B : ℕ) (hB : 0 < B) (l : List α) :
    ∀ c ∈ chunksOf B l, c.length ≤ B ∧ c ≠ [] :=
  chunksOf_mem_aux B hB l.length l (le_refl _)

theorem processChunk_none {α : Type} (service : List String → Option (List (ℕ × α)))
    (c : List String) (h : service c = none) :
    processChunk service c = List.replicate c.length none := by
  unfold processChunk
  rw [h]

theorem processChunk_length {α : Type}
    (service : List String → Option (List (ℕ × α)))
    (hwf : ∀ c resp, service c = some resp →
      (stableSortBy (fun a b : ℕ × α => decide (a.1 ≤ b.1)) resp).map Prod.fst =
        List.range c.length)
    (c : List String) : (processChunk service c).length = c.length := by
  unfold processChunk
  cases hs : service c with
  | none => rw [List.length_replicate]
  | some resp =>
      rw [List.length_map]
      have := congrArg List.length (hwf c resp hs)
      rw [List.length_map, List.length_range] at this
      exact this

theorem processChunk_align {α : Type}
    (service : List String → Option (List (ℕ × α)))
    (c : List String) (resp : List (ℕ × α)) (hs : service c = some resp)
    (hfst : (stableSortBy (fun a b : ℕ × α => decide (a.1 ≤ b.1)) resp).map
        Prod.fst = List.range c.length)
    (i : ℕ) (v : α) (hiv : (i, v) ∈ resp) :
    (processChunk service c).getD i none = some v := by
  unfold processChunk
  rw [hs]
  have hmem : (i, v) ∈ stableSortBy (fun a b : ℕ × α => decide (a.1 ≤ b.1)) resp :=
    (mem_stableSortBy _ _ _).mpr hiv
  rcases List.mem_iff_getElem.mp hmem with ⟨j, hj, hget⟩
  have hij : i = j := by
    have hjm : j < ((stableSortBy (fun a b : ℕ × α => decide (a.1 ≤ b.1)) resp).map
        Prod.fst).length := by
      rw [List.length_map]
      exact hj
    have h1 : ((stableSortBy (fun a b : ℕ × α => decide (a.1 ≤ b.1)) resp).map
        Prod.fst)[j] = i := by
      rw [List.getElem_map, hget]
    have h2 : ((stableSortBy (fun a b : ℕ × α => decide (a.1 ≤ b.1)) resp).map
        Prod.fst)[j] = j := by
      rw [List.getElem_of_eq hfst]
      apply List.getElem_range
    exact h1.symm.trans h2
  subst hij
  rw [getD_map_lt _ _ i (none : Option α) (i, v) hj,
    List.getD_eq_getElem _ _ hj, hget]

theorem flatten_length_eq {α : Type}
    (service : List String → Option (List (ℕ × α)))
    (hwf : ∀ c resp, service c = some resp →
      (stableSortBy (fun a b : ℕ × α => decide (a.1 ≤ b.1)) resp).map Prod.fst =
        List.range c.length)
    (cs : List (List String)) :
    ((cs.map (processChunk service)).flatten).length = (cs.flatten).length := by
  induction cs with
  | nil => rfl
  | cons c t ih =>
      rw [List.map_cons, List.flatten_cons, List.flatten_cons,
        List.length_append, List.length_append, ih,
        processChunk_length service hwf c]

/-- C7: generate_embeddings_batch partitions the texts into chunks of at
most BATCH_SIZE covering the input in order, issues exactly one outbound
request per chunk (the request log equals the chunk list), marks every
item of a failed chunk None without touching other chunks, and — for
well-formed service responses, whose items re-sorted by their index field
enumerate the chunk positions — returns one entry per input, the entry at
chunk position i being the response item labelled i. -/
theorem C7_embed_batch {α : Type}
    (service : List String → Option (List (ℕ × α))) (B : ℕ)
    (texts : List String) (hB : 0 < B)
    (hwf : ∀ c resp, service c = some resp →
      (stableSortBy (fun a b : ℕ × α => decide (a.1 ≤ b.1)) resp).map Prod.fst =
        List.range c.length) :
    generate_embeddings_batch_log service B texts =
      (generate_embeddings_batch service B texts, chunksOf B texts) ∧
    (∀ c ∈ chunksOf B texts, c.length ≤ B ∧ c ≠ []) ∧
    (chunksOf B texts).flatten = texts ∧
    (generate_embeddings_batch service B texts).length = texts.length ∧
    (∀ c, service c = none →
      processChunk service c = List.replicate c.length none) ∧
    (∀ c resp, service c = some resp → ∀ i v, (i, v) ∈ resp →
      (processChunk service c).getD i none = some v) := by
  refine ⟨?_, chunksOf_mem B hB texts, chunksOf_flatten B hB texts, ?_,
    processChunk_none service, ?_⟩
  · unfold generate_embeddings_batch_log generate_embeddings_batch
    rw [foldl_log_aux]
    simp
  · unfold generate_embeddings_batch
    rw [flatten_length_eq service hwf, chunksOf_flatten B hB texts]
  · intro c resp hs i v hiv
    exact processChunk_align service c resp hs (hwf c resp hs) i v hiv

/-- Witness for C7: three texts, batch size two; the first chunk succeeds
with out-of-order response items, the second chunk fails. -/
theorem C7_embed_batch_witness :
    (0 < 2 ∧
     (∀ c resp, (if c = ["a", "b"] then some [(1, 10), (0, 20)] else none) =
        some resp →
       (stableSortBy (fun a b : ℕ × ℕ => decide (a.1 ≤ b.1)) resp).map Prod.fst =
         List.range c.length)) ∧
    (generate_embeddings_batch_log
        (fun c => if c = ["a", "b"] then some [(1, 10), (0, 20)] else none)
        2 ["a", "b", "c"] =
      (generate_embeddings_batch
          (fun c => if c = ["a", "b"] then some [(1, 10), (0, 20)] else none)
          2 ["a", "b", "c"],
        chunksOf 2 ["a", "b", "c"]) ∧
     (∀ c ∈ chunksOf 2 ["a", "b", "c"], c.length ≤ 2 ∧ c ≠ []) ∧
     (chunksOf 2 ["a", "b", "c"]).flatten = ["a", "b", "c"] ∧
     (generate_embeddings_batch
        (fun c => if c = ["a", "b"] then some [(1, 10), (0, 20)] else none)
        2 ["a", "b", "c"]).length = (["a", "b", "c"] : List String).length ∧
     (∀ c, (if c = ["a", "b"] then some [(1, 10), (0, 20)] else none) = none →
       processChunk
          (fun c => if c = ["a", "b"] then some [(1, 10), (0, 20)] else none) c =
         List.replicate c.length none) ∧
     (∀ c resp, (if c = ["a", "b"] then some [(1, 10), (0, 20)] else none) =
        some resp → ∀ i v, (i, v) ∈ resp →
       (processChunk
          (fun c => if c = ["a", "b"] then some [(1, 10), (0, 20)] else none)
          c).getD i none = some v)) := by
  have hwf : ∀ c resp,
      (if c = ["a", "b"] then some [(1, 10), (0, 20)] else none) = some resp →
      (stableSortBy (fun a b : ℕ × ℕ => decide (a.1 ≤ b.1)) resp).map Prod.fst =
        List.range c.length := by
    intro c resp h
    by_cases hc : c = ["a", "b"]
    · subst hc
      rw [if_pos rfl] at h
      have hr := Option.some.inj h
      subst hr
      decide
    · rw [if_neg hc] at h
      cases h
  exact ⟨⟨by decide, hwf⟩,
    C7_embed_batch (fun c => if c = ["a", "b"] then some [(1, 10), (0, 20)] else none)
      2 ["a", "b", "c"] (by decide) hwf⟩

end Labkafe
